import Mathlib

/-!
Verification of the SMSI-Calendar backend core: the recurrence codec
(`generateRRule` in `src/routes/platforms.routes.ts`), the tag-extraction
heuristic (`parseTags`, same file), and the calendar query engine with
occurrence expansion (`calendarRoutes` in `src/routes/calendar.routes.ts`).

Conventions of the shallow embedding:
* Instants are integers: milliseconds since the Unix epoch, UTC.
* Nullable columns and optional request parameters are `Option`.
* JavaScript strings are Lean `String`s; the string algorithms work on the
  underlying `List Char`.
* Fallible operations return `Option`; the model is total, mirroring the
  handlers' behaviour of never throwing across a request.
-/

namespace SMSI

/-! ## Character and list utilities (JS string primitives) -/

/-- Whitespace as removed by `String.prototype.trim` (modelled subset:
space, tab, line feed, carriage return). -/
def isWs (c : Char) : Bool :=
  decide (c.toNat = 32 ∨ c.toNat = 9 ∨ c.toNat = 10 ∨ c.toNat = 13)

/-- `input.trim()` on the character list: drop leading and trailing
whitespace. -/
def trimL (l : List Char) : List Char :=
  ((l.dropWhile isWs).reverse.dropWhile isWs).reverse

/-- `s.trim()` at the `String` level. -/
def jsTrim (s : String) : String := ⟨trimL s.data⟩

/-- The single-quote character, `'` (U+0027). -/
def sq : Char := Char.ofNat 39

/-- The double-quote character, `"` (U+0022). -/
def dq : Char := Char.ofNat 34

/-- Characters matched by the tag pattern `[\wÀ-ÿ]` of
`platforms.routes.ts` line 220: ASCII word characters (letters, digits,
underscore) plus the Latin-1 range `À`..`ÿ`. -/
def isTagChar (c : Char) : Bool :=
  decide ((97 ≤ c.toNat ∧ c.toNat ≤ 122) ∨ (65 ≤ c.toNat ∧ c.toNat ≤ 90) ∨
    (48 ≤ c.toNat ∧ c.toNat ≤ 57) ∨ c.toNat = 95 ∨
    (192 ≤ c.toNat ∧ c.toNat ≤ 255))

/-- Fuel-driven scanner behind `hashtagRuns`; the fuel only bounds the
recursion depth (each step consumes at least one character, so any fuel of
at least the list length gives the full scan). -/
def hashtagRunsAux : Nat → List Char → List (List Char)
  | _, [] => []
  | 0, _ => []
  | fuel + 1, c :: rest =>
    if c = '#' then
      let run := rest.takeWhile isTagChar
      if run.isEmpty then hashtagRunsAux fuel rest
      else run :: hashtagRunsAux fuel (rest.drop run.length)
    else hashtagRunsAux fuel rest

/-- Global matching of the regex `/#[\wÀ-ÿ]+/g` (with the leading `#`
already stripped from each match, as done by `tag.slice(1)`): scan left to
right, at each `#` take the maximal non-empty run of tag characters. -/
def hashtagRuns (l : List Char) : List (List Char) := hashtagRunsAux l.length l

/-- `input.split(sep)` on character lists. -/
def splitOnChar (sep : Char) : List Char → List (List Char)
  | [] => [[]]
  | c :: rest =>
    if c = sep then [] :: splitOnChar sep rest
    else
      match splitOnChar sep rest with
      | [] => [[c]]
      | h :: t => (c :: h) :: t

/-! ## A JSON array parser

`parseTags` feeds inputs shaped like `[...]` to `JSON.parse` and uses the
result when it is an array.  `JSON.parse` is a JavaScript builtin, not code
of this repository.  Modelled from the spec: "Input is syntactically a JSON
array literal → parse as array, stringify each element, trim, drop
empties"; the modelled subset accepts top-level arrays whose elements are
JSON strings (with the common escapes), and rejects everything else, which
then falls through to the next convention exactly like unparseable JSON. -/

/-- Skip JSON insignificant whitespace. -/
def skipWsL (l : List Char) : List Char := l.dropWhile isWs

/-- Parse the body of a JSON string after the opening `"`.  Returns the
decoded content and the remainder after the closing `"`. -/
def jsonStringBody : Nat → List Char → List Char → Option (List Char × List Char)
  | _, [], _ => none
  | 0, _, _ => none
  | fuel + 1, c :: rest, acc =>
    if c = dq then some (acc.reverse, rest)
    else if c = '\\' then
      match rest with
      | [] => none
      | e :: rest2 =>
        let m : Option Char :=
          if e = dq then some dq
          else if e = '\\' then some '\\'
          else if e = '/' then some '/'
          else if e = 'n' then some '\n'
          else if e = 't' then some '\t'
          else if e = 'r' then some '\r'
          else none
        match m with
        | none => none
        | some ch => jsonStringBody fuel rest2 (ch :: acc)
    else jsonStringBody fuel rest (c :: acc)

/-- Parse the elements of a JSON array after the opening `[` (non-empty
case): a `"`-delimited string, then either `,` and more elements or the
closing `]` followed only by whitespace. -/
def jsonArrayElems : Nat → List Char → List (List Char) → Option (List (List Char))
  | 0, _, _ => none
  | fuel + 1, l, acc =>
    match skipWsL l with
    | c :: rest =>
      if c = dq then
        match jsonStringBody rest.length rest [] with
        | none => none
        | some (s, rest2) =>
          match skipWsL rest2 with
          | ',' :: rest3 => jsonArrayElems fuel rest3 (s :: acc)
          | c2 :: rest3 =>
            if c2 = ']' then
              if (skipWsL rest3).isEmpty then some (s :: acc).reverse else none
            else none
          | [] => none
      else none
    | [] => none

/-- `JSON.parse` restricted to the modelled subset: a top-level array of
JSON strings, with nothing but whitespace after the closing bracket. -/
def parseJsonArray (l : List Char) : Option (List (List Char)) :=
  match skipWsL l with
  | '[' :: rest =>
    match skipWsL rest with
    | ']' :: rest2 => if (skipWsL rest2).isEmpty then some [] else none
    | _ => jsonArrayElems rest.length rest []
  | _ => none

/-! ## The tag-extraction heuristic (`parseTags`, platforms.routes.ts 202-234) -/

/-- `parseTags` from `src/routes/platforms.routes.ts`: empty input, then
JSON array literal, then hashtag extraction, then comma splitting, then the
whole input as one tag with a single surrounding quote pair stripped. -/
def parseTags (s : String) : List String :=
  if (trimL s.data).isEmpty then []
  else
    let f := trimL s.data
    let jsonTags : Option (List String) :=
      if f.head? = some '[' ∧ f.getLast? = some ']' then
        (parseJsonArray f).map (fun elems =>
          ((elems.map trimL).filter (fun t => !t.isEmpty)).map
            (fun t => (⟨t⟩ : String)))
      else none
    match jsonTags with
    | some ts => ts
    | none =>
      if f.contains '#' then (hashtagRuns f).map (fun t => (⟨t⟩ : String))
      else if f.contains ',' then
        (((splitOnChar ',' f).map trimL).filter (fun t => !t.isEmpty)).map
          (fun t => (⟨t⟩ : String))
      else
        let unq :=
          if (f.head? = some dq ∧ f.getLast? = some dq) ∨
             (f.head? = some sq ∧ f.getLast? = some sq) then
            (f.drop 1).dropLast
          else f
        [⟨trimL unq⟩]

/-! ## The recurrence encoder (`generateRRule`, platforms.routes.ts 236-255)

`generateRRule` formats its `UNTIL` bound with
`repeatEndDate.toISOString().replace(/[-:]/g, "").split(".")[0]` followed
by `Z`.  A JavaScript `Date` holding a valid instant is modelled by its
UTC calendar decomposition; `Date.prototype.toISOString` then produces the
padded `YYYY-MM-DDTHH:MM:SS.mmmZ` text (years 0..9999). -/

/-- A valid JavaScript `Date`, decomposed into its UTC fields. -/
structure JsDate where
  year : Nat
  month : Nat
  day : Nat
  hour : Nat
  minute : Nat
  second : Nat
  millis : Nat
deriving DecidableEq, Repr

/-- The decimal digit character for `n % 10`. -/
def digitChar (n : Nat) : Char := Char.ofNat (48 + n % 10)

/-- Two-digit zero-padded field (values below 100). -/
def pad2 (n : Nat) : List Char := [digitChar (n / 10), digitChar n]

/-- Three-digit zero-padded field (values below 1000). -/
def pad3 (n : Nat) : List Char := [digitChar (n / 100), digitChar (n / 10), digitChar n]

/-- Four-digit zero-padded field (values below 10000). -/
def pad4 (n : Nat) : List Char :=
  [digitChar (n / 1000), digitChar (n / 100), digitChar (n / 10), digitChar n]

/-- `Date.prototype.toISOString`: `YYYY-MM-DDTHH:MM:SS.mmmZ`. -/
def toIsoChars (d : JsDate) : List Char :=
  pad4 d.year ++ '-' :: pad2 d.month ++ '-' :: pad2 d.day ++
    'T' :: pad2 d.hour ++ ':' :: pad2 d.minute ++ ':' :: pad2 d.second ++
    '.' :: pad3 d.millis ++ ['Z']

/-- The `UNTIL` value built by `generateRRule`:
`toISOString().replace(/[-:]/g, "").split(".")[0]`. -/
def untilChars (d : JsDate) : List Char :=
  ((toIsoChars d).filter (fun c => !(c == '-' || c == ':'))).takeWhile
    (fun c => c != '.')

/-- The iCalendar basic-format UTC timestamp truncated to whole seconds,
written directly from its fields: `YYYYMMDDTHHMMSS`. -/
def basicUtcChars (d : JsDate) : List Char :=
  pad4 d.year ++ pad2 d.month ++ pad2 d.day ++
    'T' :: pad2 d.hour ++ pad2 d.minute ++ pad2 d.second

/-- `generateRRule` from `src/routes/platforms.routes.ts`: category to
canonical rule string, with an optional `UNTIL` bound.  The object-literal
lookup `repeatMap[repeatType]` is modelled as own-property lookup (the
JavaScript prototype chain is not modelled). -/
def generateRRule (repeatType : String) (repeatEndDate : Option JsDate) : Option String :=
  if repeatType = "none" then none
  else
    let rruleBase : String :=
      if repeatType = "weekly" then "FREQ=WEEKLY"
      else if repeatType = "monthly" then "FREQ=MONTHLY"
      else if repeatType = "quarterly" then "FREQ=MONTHLY;INTERVAL=3"
      else if repeatType = "semestrial" then "FREQ=MONTHLY;INTERVAL=6"
      else if repeatType = "yearly" then "FREQ=YEARLY"
      else ""
    if rruleBase = "" then none
    else
      let untilPart : List Char :=
        match repeatEndDate with
        | some d => ";UNTIL=".data ++ untilChars d ++ ['Z']
        | none => []
      some ⟨rruleBase.data ++ untilPart⟩

/-- The `;UNTIL=...Z` suffix `generateRRule` is specified to append,
phrased over the clean basic-format timestamp. -/
def untilSuffix : Option JsDate → List Char
  | some d => ";UNTIL=".data ++ basicUtcChars d ++ ['Z']
  | none => []

/-! ## The event record and the calendar query window filter -/

/-- An `events` row, restricted to the fields the calendar query engine
reads or rewrites.  `start`, `end`, `repeat_end_date` and `recurrence_id`
are instants in epoch milliseconds; occurrences produced by expansion use
the same shape (the handler spreads the full row). -/
structure Event where
  id : Nat
  title : String
  start : Option Int
  «end» : Option Int
  rrule : Option String
  repeat_end_date : Option Int
  recurrence_id : Option Int
deriving DecidableEq, Repr

/-- SQL comparison `x <= b` on a nullable column: `NULL` compares false. -/
def optLe (x : Option Int) (b : Int) : Bool :=
  match x with
  | some v => decide (v ≤ b)
  | none => false

/-- SQL comparison `x >= b` on a nullable column: `NULL` compares false. -/
def optGe (x : Option Int) (b : Int) : Bool :=
  match x with
  | some v => decide (b ≤ v)
  | none => false

/-- SQL range test `lo <= x AND x <= hi` on a nullable column. -/
def optWithin (x : Option Int) (lo hi : Int) : Bool :=
  match x with
  | some v => decide (lo ≤ v) && decide (v ≤ hi)
  | none => false

/-- The Prisma `whereClause.OR` built in `calendar.routes.ts` lines 16-46
when both `start` and `end` query parameters are present. -/
def whereMatches (e : Event) (queryStart queryEnd : Int) : Bool :=
  (e.rrule == none && optWithin e.start queryStart queryEnd) ||
  (e.rrule == none && optWithin e.«end» queryStart queryEnd) ||
  (optLe e.start queryStart && optGe e.«end» queryEnd && e.rrule == none) ||
  (!(e.rrule == none) && optLe e.start queryEnd &&
    (optGe e.repeat_end_date queryStart || e.repeat_end_date == none)) ||
  (e.start == none)

/-- Comparison key of `orderBy: { start: "asc" }`: ascending by `start`,
events without a start last (PostgreSQL default `NULLS LAST`). -/
def startKeyLe (a b : Event) : Bool :=
  match a.start, b.start with
  | none, none => true
  | none, some _ => false
  | some _, none => true
  | some x, some y => decide (x ≤ y)

/-- Decidability of the sort-key relation. -/
instance startKeyDecidable : DecidableRel (fun a b : Event => startKeyLe a b = true) :=
  fun _ _ => instDecidableEqBool _ _

/-- The database ordering `orderBy: { start: "asc" }` (stable insertion
sort by `startKeyLe`; the storage collaborator is external to the core, so
this models the delivered row order). -/
def sortByStart (l : List Event) : List Event :=
  List.insertionSort (fun a b => startKeyLe a b = true) l

/-! ## The recurrence rule decoder

`RRule.parseString` belongs to the external `rrule` npm package, not to
this repository.  Modelled from the spec: the canonical rule grammar is
the iCalendar subset `FREQ=<WEEKLY|MONTHLY|YEARLY>[;INTERVAL=<n>]
[;UNTIL=<UTC-basic-timestamp>]`, and decoding fails (`MalformedRuleError`)
when the string does not carry a valid frequency token. -/

/-- Recognized frequencies of the committed grammar subset. -/
inductive RFreq
  | weekly
  | monthly
  | yearly
deriving DecidableEq, Repr

/-- Decoded recurrence parameters: frequency, interval (default 1) and
optional closed `UNTIL` bound (epoch ms). -/
structure RRuleOpts where
  freq : RFreq
  interval : Nat
  «until» : Option Int
deriving DecidableEq, Repr

/-- Read a non-empty all-digit run as a natural number. -/
def natFromDigits (l : List Char) : Option Nat :=
  if !l.isEmpty ∧ l.all (fun c => c.isDigit) then
    some (l.foldl (fun n c => n * 10 + (c.toNat - 48)) 0)
  else none

/-- Days from the Unix epoch to civil date `y-m-d` (proleptic Gregorian,
valid for years from 1 onward). -/
def epochDays (y m d : Nat) : Int :=
  let y1 := if m ≤ 2 then y - 1 else y
  let era := y1 / 400
  let yoe := y1 % 400
  let mp := (m + 9) % 12
  let doy := (153 * mp + 2) / 5 + (d - 1)
  let doe := yoe * 365 + yoe / 4 + doy - yoe / 100
  ((era * 146097 + doe : Nat) : Int) - 719468

/-- Epoch milliseconds of the UTC instant `y-mo-d h:mi:s`. -/
def epochMs (y mo d h mi s : Nat) : Int :=
  epochDays y mo d * 86400000 + ((h * 3600 + mi * 60 + s) * 1000 : Nat)

/-- Parse a `UNTIL` value in UTC basic format, `YYYYMMDDTHHMMSSZ`. -/
def parseUntilTs (l : List Char) : Option Int :=
  if l.length = 16 ∧ (l.drop 8).take 1 = ['T'] ∧ l.drop 15 = ['Z'] then
    match natFromDigits (l.take 4), natFromDigits ((l.drop 4).take 2),
        natFromDigits ((l.drop 6).take 2), natFromDigits ((l.drop 9).take 2),
        natFromDigits ((l.drop 11).take 2), natFromDigits ((l.drop 13).take 2) with
    | some y, some mo, some d, some h, some mi, some s => some (epochMs y mo d h mi s)
    | _, _, _, _, _, _ => none
  else none

/-- Split one `KEY=VALUE` rule part at its first `=`. -/
def splitEq (part : List Char) : List Char × List Char :=
  (part.takeWhile (fun c => c != '='), (part.dropWhile (fun c => c != '=')).drop 1)

/-- Apply one `KEY=VALUE` part to the decoding state
`(frequency found so far, interval, until)`; `none` means the rule is
malformed. -/
def applyRRulePart (st : Option (Option RFreq × Nat × Option Int)) (part : List Char) :
    Option (Option RFreq × Nat × Option Int) :=
  match st with
  | none => none
  | some (f, i, u) =>
    let kv := splitEq part
    if kv.1 = "FREQ".data then
      if kv.2 = "WEEKLY".data then some (some .weekly, i, u)
      else if kv.2 = "MONTHLY".data then some (some .monthly, i, u)
      else if kv.2 = "YEARLY".data then some (some .yearly, i, u)
      else none
    else if kv.1 = "INTERVAL".data then
      match natFromDigits kv.2 with
      | some n => some (f, n, u)
      | none => none
    else if kv.1 = "UNTIL".data then
      match parseUntilTs kv.2 with
      | some t => some (f, i, some t)
      | none => none
    else none

/-- Modelled from the spec: `RRule.parseString` over the committed grammar
subset; decoding succeeds exactly when every `;`-separated part is a
recognized `KEY=VALUE` pair and a valid `FREQ` is among them. -/
def parseRRuleString (s : String) : Option RRuleOpts :=
  match (splitOnChar ';' s.data).foldl applyRRulePart (some (none, 1, none)) with
  | some (some f, i, u) => some ⟨f, i, u⟩
  | _ => none

/-! ## Occurrence expansion (`calendar.routes.ts` 74-112) -/

/-- Modelled from the spec: the nominal gap between consecutive defining
instants of a series, per frequency, in milliseconds (weekly is exact;
months and years are idealized as 30 and 365 days — the engine-level
properties proved here do not depend on the external rrule library's exact
calendar arithmetic). -/
def freqStepMs : RFreq → Nat
  | .weekly => 604800000
  | .monthly => 2592000000
  | .yearly => 31536000000

/-- The series step of a decoded rule: interval times the frequency gap. -/
def stepOf (o : RRuleOpts) : Nat := o.interval * freqStepMs o.freq

/-- Modelled from the spec: `rule.between(queryStart, queryEnd, true)` for
a series anchored at `t0` with constant step — every defining instant
`t0 + k * step` lying in `[qs, qe]`, inclusive at both ends, never past
the closed `UNTIL` bound, in ascending order. -/
def ruleDates (t0 : Int) (step : Nat) (until? : Option Int) (qs qe : Int) : List Int :=
  let hi : Int := match until? with
    | none => qe
    | some u => min qe u
  if hi < t0 then []
  else
    ((List.range ((hi - t0).toNat / step + 1)).map
        (fun k : Nat => t0 + (step : Int) * (k : Int))).filter
      (fun d => decide (qs ≤ d) && decide (d ≤ hi))

/-- The constant duration applied to every generated occurrence:
`event.end ? event.end.getTime() - event.start.getTime() : 0`. -/
def durationOf (e : Event) (t0 : Int) : Int :=
  match e.«end» with
  | some te => te - t0
  | none => 0

/-- The per-event body of the expansion loop: a recurring event with a
start is expanded through the decoded rule (falling back to the single
un-expanded row when decoding fails); everything else is passed through
unchanged. -/
def expandEvent (queryStart queryEnd : Int) (e : Event) : List Event :=
  match e.rrule, e.start with
  | some r, some t0 =>
    (match parseRRuleString r with
     | some opts =>
       (ruleDates t0 (stepOf opts) opts.«until» queryStart queryEnd).map
         (fun d => { e with
           start := some d
           «end» := some (d + durationOf e t0)
           recurrence_id := some d })
     | none => [e])
  | _, _ => [e]

/-- One nominal year of the default window, in milliseconds.  Modelled
from the spec: the handler's `new Date(new Date().setFullYear(year + 1))`
(calendar-year addition, idealized as 365 days). -/
def yearMs : Int := 31536000000

/-- The calendar GET handler: the Prisma filter is built only when both
`start` and `end` parameters are present; rows are fetched ordered by
`start` ascending; recurring events are expanded over
`[queryStart, queryEnd]` where missing bounds default to `now` and
`now + 1 year`. -/
def calendarQuery (startParam endParam : Option Int) (now : Int)
    (events : List Event) : List Event :=
  let queryStart := startParam.getD now
  let queryEnd := endParam.getD (now + yearMs)
  let fetched :=
    match startParam, endParam with
    | some _, some _ => sortByStart (events.filter (fun e => whereMatches e queryStart queryEnd))
    | _, _ => sortByStart events
  (fetched.map (expandEvent queryStart queryEnd)).flatten

/-! ## Properties of the recurrence encoder -/

theorem digitChar_ne_dash (n : Nat) : (digitChar n == '-') = false := by
  have h : n % 10 < 10 := Nat.mod_lt _ (by norm_num)
  unfold digitChar
  revert h
  generalize n % 10 = m
  intro h
  interval_cases m <;> rfl

theorem digitChar_ne_colon (n : Nat) : (digitChar n == ':') = false := by
  have h : n % 10 < 10 := Nat.mod_lt _ (by norm_num)
  unfold digitChar
  revert h
  generalize n % 10 = m
  intro h
  interval_cases m <;> rfl

theorem digitChar_ne_dot (n : Nat) : (digitChar n != '.') = true := by
  have h : n % 10 < 10 := Nat.mod_lt _ (by norm_num)
  unfold digitChar
  revert h
  generalize n % 10 = m
  intro h
  interval_cases m <;> rfl

/-- The encoder's `replace`/`split` pipeline over the ISO string agrees
with the directly written basic-format timestamp. -/
theorem untilChars_eq (d : JsDate) : untilChars d = basicUtcChars d := by
  unfold untilChars toIsoChars basicUtcChars pad4 pad3 pad2
  simp [List.filter, List.takeWhile, digitChar_ne_dash, digitChar_ne_colon,
    digitChar_ne_dot]

/-- C5: `generateRRule` maps weekly to `FREQ=WEEKLY`, monthly to
`FREQ=MONTHLY`, quarterly to `FREQ=MONTHLY;INTERVAL=3`, semestrial to
`FREQ=MONTHLY;INTERVAL=6` and yearly to `FREQ=YEARLY`, appending
`;UNTIL=<end date in UTC basic format, truncated to whole seconds>Z`
exactly when an end date is present, and returns `null` for every other
category — `none` and unmapped ones such as `daily` alike; being a total
function of its inputs, it never raises. -/
theorem c5_generate_rrule :
    (∀ d, generateRRule "weekly" d = some ⟨"FREQ=WEEKLY".data ++ untilSuffix d⟩) ∧
    (∀ d, generateRRule "monthly" d = some ⟨"FREQ=MONTHLY".data ++ untilSuffix d⟩) ∧
    (∀ d, generateRRule "quarterly" d = some ⟨"FREQ=MONTHLY;INTERVAL=3".data ++ untilSuffix d⟩) ∧
    (∀ d, generateRRule "semestrial" d = some ⟨"FREQ=MONTHLY;INTERVAL=6".data ++ untilSuffix d⟩) ∧
    (∀ d, generateRRule "yearly" d = some ⟨"FREQ=YEARLY".data ++ untilSuffix d⟩) ∧
    (∀ rt d, rt ∉ (["weekly", "monthly", "quarterly", "semestrial", "yearly"] : List String) →
      generateRRule rt d = none) := by
  refine ⟨?_, ?_, ?_, ?_, ?_, ?_⟩
  · rintro (_ | d)
    · rfl
    · simp [generateRRule, untilSuffix, untilChars_eq]
  · rintro (_ | d)
    · rfl
    · simp [generateRRule, untilSuffix, untilChars_eq]
  · rintro (_ | d)
    · rfl
    · simp [generateRRule, untilSuffix, untilChars_eq]
  · rintro (_ | d)
    · rfl
    · simp [generateRRule, untilSuffix, untilChars_eq]
  · rintro (_ | d)
    · rfl
    · simp [generateRRule, untilSuffix, untilChars_eq]
  · intro rt d hrt
    simp only [List.mem_cons, List.mem_singleton, not_or] at hrt
    obtain ⟨h1, h2, h3, h4, h5⟩ := hrt
    by_cases hn : rt = "none"
    · simp [generateRRule, hn]
    · simp [generateRRule, hn, h1, h2, h3, h4, h5]

/-- Witness for C5: the unmapped category `daily` yields `null`, and a
weekly rule with end date 2024-02-01 yields the concrete canonical
string. -/
theorem c5_generate_rrule_witness :
    generateRRule "daily" (some ⟨2024, 2, 1, 0, 0, 0, 0⟩) = none ∧
    generateRRule "weekly" (some ⟨2024, 2, 1, 0, 0, 0, 0⟩) =
      some "FREQ=WEEKLY;UNTIL=20240201T000000Z" :=
  ⟨c5_generate_rrule.2.2.2.2.2 "daily" _ (by decide),
   (c5_generate_rrule.1 (some ⟨2024, 2, 1, 0, 0, 0, 0⟩)).trans (by decide)⟩

/-! ## Properties of the tag heuristic -/

theorem trimL_eq_rdrop (l : List Char) :
    trimL l = (l.dropWhile isWs).rdropWhile isWs := rfl

/-- The head of a `dropWhile` residue no longer satisfies the predicate. -/
theorem head_dropWhile_false {α : Type} (p : α → Bool) (l : List α) (c : α)
    (cs : List α) (h : l.dropWhile p = c :: cs) : p c = false := by
  induction l with
  | nil => simp [List.dropWhile] at h
  | cons a rest ih =>
    rw [List.dropWhile_cons] at h
    by_cases ha : p a = true
    · rw [if_pos ha] at h
      exact ih h
    · rw [if_neg ha] at h
      cases h
      simpa using ha

theorem dropWhile_trimL (l : List Char) : (trimL l).dropWhile isWs = trimL l := by
  cases h : trimL l with
  | nil => rfl
  | cons c cs =>
    have hr : List.rdropWhile isWs (l.dropWhile isWs) = c :: cs := h
    obtain ⟨t, ht⟩ := List.rdropWhile_prefix isWs (l.dropWhile isWs)
    rw [hr] at ht
    have hd : l.dropWhile isWs = c :: (cs ++ t) := by
      rw [← ht]
      simp
    have hnw : isWs c = false := head_dropWhile_false isWs l c (cs ++ t) hd
    rw [List.dropWhile_cons, hnw]
    simp

/-- Trimming is idempotent. -/
theorem trimL_idem (l : List Char) : trimL (trimL l) = trimL l := by
  rw [trimL_eq_rdrop (trimL l), dropWhile_trimL, trimL_eq_rdrop l,
    List.rdropWhile_idempotent]

/-- A list without any whitespace character is already trimmed. -/
theorem trimL_eq_self_of_clean (l : List Char) (h : ∀ c ∈ l, isWs c = false) :
    trimL l = l := by
  have h1 : List.dropWhile isWs l = l := by
    cases l with
    | nil => rfl
    | cons a rest =>
      rw [List.dropWhile_cons]
      simp [h a (List.mem_cons_self a rest)]
  rw [trimL_eq_rdrop, h1]
  exact List.rdropWhile_eq_self_iff.mpr fun hl => by simp [h _ (List.getLast_mem hl)]

/-- Tag characters are never whitespace. -/
theorem isTagChar_not_ws (c : Char) (h : isTagChar c = true) : isWs c = false := by
  simp only [isTagChar, decide_eq_true_eq] at h
  simp only [isWs, decide_eq_false_iff_not]
  omega

/-- Every run produced by the hashtag scanner is a non-empty list of tag
characters. -/
theorem hashtagRunsAux_mem (fuel : Nat) (l : List Char) :
    ∀ t ∈ hashtagRunsAux fuel l, t ≠ [] ∧ ∀ c ∈ t, isTagChar c = true := by
  induction fuel generalizing l with
  | zero => cases l <;> simp [hashtagRunsAux]
  | succ n ih =>
    cases l with
    | nil => simp [hashtagRunsAux]
    | cons c rest =>
      simp only [hashtagRunsAux]
      by_cases hc : c = '#'
      · simp only [hc, if_true]
        by_cases hr : (rest.takeWhile isTagChar).isEmpty
        · simpa [hr] using ih rest
        · simp only [hr, if_false]
          intro t ht
          rcases List.mem_cons.mp ht with h | h
          · subst h
            exact ⟨fun he => by simp [he] at hr,
              fun c hc => List.mem_takeWhile_imp hc⟩
          · exact ih _ t h
      · simpa [hc] using ih rest

/-- Shape of the tag list: empty, a single whole-input tag, or tags that
are all non-empty and already trimmed. -/
theorem parseTags_shape (s : String) :
    parseTags s = [] ∨
    (∃ unq, parseTags s = [⟨trimL unq⟩]) ∨
    (∀ t ∈ parseTags s, ∃ cs, t = String.mk cs ∧ cs ≠ [] ∧ trimL cs = cs) := by
  unfold parseTags
  by_cases h0 : (trimL s.data).isEmpty
  · simp [h0]
  · simp only [h0, if_false]
    by_cases hg : (trimL s.data).head? = some '[' ∧ (trimL s.data).getLast? = some ']'
    · cases hp : parseJsonArray (trimL s.data) with
      | some elems =>
        refine Or.inr (Or.inr ?_)
        simp only [hg, and_self, if_true, hp, Option.map_some]
        intro t ht
        obtain ⟨cs, hcs, rfl⟩ := List.mem_map.mp ht
        have hmem := List.mem_filter.mp hcs
        obtain ⟨x, _, hx⟩ := List.mem_map.mp hmem.1
        refine ⟨cs, rfl, ?_, ?_⟩
        · have := hmem.2
          simpa [List.isEmpty_iff] using this
        · rw [← hx, trimL_idem]
      | none =>
        simp only [hg, and_self, if_true, hp, Option.map_none]
        by_cases hh : (trimL s.data).contains '#'
        · refine Or.inr (Or.inr ?_)
          simp only [hh, if_true]
          intro t ht
          obtain ⟨cs, hcs, rfl⟩ := List.mem_map.mp ht
          obtain ⟨hne, hall⟩ := hashtagRunsAux_mem _ _ cs hcs
          exact ⟨cs, rfl, hne, trimL_eq_self_of_clean cs
            fun c hc => isTagChar_not_ws c (hall c hc)⟩
        · by_cases hcma : (trimL s.data).contains ','
          · refine Or.inr (Or.inr ?_)
            simp only [hh, if_false, hcma, if_true]
            intro t ht
            obtain ⟨cs, hcs, rfl⟩ := List.mem_map.mp ht
            have hmem := List.mem_filter.mp hcs
            obtain ⟨x, _, hx⟩ := List.mem_map.mp hmem.1
            refine ⟨cs, rfl, ?_, ?_⟩
            · have := hmem.2
              simpa [List.isEmpty_iff] using this
            · rw [← hx, trimL_idem]
          · refine Or.inr (Or.inl ?_)
            simp only [hh, if_false, hcma]
            exact ⟨_, rfl⟩
    · simp only [hg, if_false]
      by_cases hh : (trimL s.data).contains '#'
      · refine Or.inr (Or.inr ?_)
        simp only [hh, if_true]
        intro t ht
        obtain ⟨cs, hcs, rfl⟩ := List.mem_map.mp ht
        obtain ⟨hne, hall⟩ := hashtagRunsAux_mem _ _ cs hcs
        exact ⟨cs, rfl, hne, trimL_eq_self_of_clean cs
          fun c hc => isTagChar_not_ws c (hall c hc)⟩
      · by_cases hcma : (trimL s.data).contains ','
        · refine Or.inr (Or.inr ?_)
          simp only [hh, if_false, hcma, if_true]
          intro t ht
          obtain ⟨cs, hcs, rfl⟩ := List.mem_map.mp ht
          have hmem := List.mem_filter.mp hcs
          obtain ⟨x, _, hx⟩ := List.mem_map.mp hmem.1
          refine ⟨cs, rfl, ?_, ?_⟩
          · have := hmem.2
            simpa [List.isEmpty_iff] using this
          · rw [← hx, trimL_idem]
        · refine Or.inr (Or.inl ?_)
          simp only [hh, if_false, hcma]
          exact ⟨_, rfl⟩

/-- A packed character list equals the empty string exactly when it is
empty. -/
theorem mk_eq_empty_iff (cs : List Char) : (⟨cs⟩ : String) = "" ↔ cs = [] := by
  constructor
  · intro h
    have : (⟨cs⟩ : String).data = ("" : String).data := by rw [h]
    simpa using this
  · intro h
    rw [h]

/-- C3 counterexample: on the input consisting of two single quotes, the
whole-input convention strips the quote pair and returns the empty tag, so
the parsed tag list does contain an empty (whitespace-only) tag. -/
theorem c3_counterexample :
    parseTags ⟨[sq, sq]⟩ = [""] ∧ ("" : String) ∈ parseTags ⟨[sq, sq]⟩ := by
  refine ⟨by decide, ?_⟩
  rw [(by decide : parseTags ⟨[sq, sq]⟩ = [""])]
  exact List.mem_singleton.mpr rfl

/-- C3 (amended): every tag produced by `parseTags` is already trimmed,
and the JSON-array, hashtag and comma conventions never produce an empty
tag; an empty tag can arise only as the single tag of the whole-input
convention — whenever an empty tag is produced, the whole result is
exactly `[""]` (as on input `''`). -/
theorem c3_tags_trimmed (s t : String) (ht : t ∈ parseTags s) :
    jsTrim t = t ∧ (t = "" → parseTags s = [""]) := by
  rcases parseTags_shape s with h | ⟨unq, h⟩ | h
  · rw [h] at ht
    simp at ht
  · rw [h] at ht
    have hts : t = (⟨trimL unq⟩ : String) := List.mem_singleton.mp ht
    subst hts
    refine ⟨?_, fun he => ?_⟩
    · show (⟨trimL (trimL unq)⟩ : String) = _
      rw [trimL_idem]
    · rw [h, ← he]
  · obtain ⟨cs, rfl, hne, htr⟩ := h t ht
    refine ⟨?_, fun he => absurd ((mk_eq_empty_iff cs).mp he) hne⟩
    show (⟨trimL cs⟩ : String) = _
    rw [htr]

/-- Witness for C3 (amended) at a hashtag input. -/
theorem c3_tags_trimmed_witness :
    jsTrim "report" = "report" ∧
    ("report" = "" → parseTags "#report #urgent" = [""]) :=
  c3_tags_trimmed "#report #urgent" "report" (by decide)

/-- The five conventions in the claim's precedence order, written from the
spec's words: empty input; syntactically-a-JSON-array (and parseable) as
an array; hashtag extraction; comma splitting; the whole trimmed input
with a single matching quote pair stripped. -/
def tagCascadeSpec (s : String) : List String :=
  let f := trimL s.data
  if f.isEmpty then []
  else if (f.head? = some '[' ∧ f.getLast? = some ']') ∧ (parseJsonArray f).isSome then
    ((((parseJsonArray f).getD []).map trimL).filter (fun t => !t.isEmpty)).map
      (fun t => (⟨t⟩ : String))
  else if f.contains '#' then (hashtagRuns f).map (fun t => (⟨t⟩ : String))
  else if f.contains ',' then
    (((splitOnChar ',' f).map trimL).filter (fun t => !t.isEmpty)).map
      (fun t => (⟨t⟩ : String))
  else
    let unq :=
      if (f.head? = some dq ∧ f.getLast? = some dq) ∨
         (f.head? = some sq ∧ f.getLast? = some sq) then
        (f.drop 1).dropLast
      else f
    [⟨trimL unq⟩]

/-- C9: the five concrete examples of the claim, and the heuristic agrees
with the claim's strict precedence cascade on every input (first
applicable convention wins; unparseable JSON falls through); `parseTags`
is a total function, so no input raises. -/
theorem c9_precedence :
    parseTags "" = [] ∧
    parseTags "#report #urgent" = ["report", "urgent"] ∧
    parseTags "a, b ,c" = ["a", "b", "c"] ∧
    parseTags "[\"x\",\"y\"]" = ["x", "y"] ∧
    parseTags ⟨sq :: "single".data ++ [sq]⟩ = ["single"] ∧
    ∀ s, parseTags s = tagCascadeSpec s := by
  refine ⟨by decide, by decide, by decide, by decide, by decide, ?_⟩
  intro s
  unfold parseTags tagCascadeSpec
  by_cases h0 : (trimL s.data).isEmpty
  · simp [h0]
  · simp only [h0, if_false]
    by_cases hg : (trimL s.data).head? = some '[' ∧ (trimL s.data).getLast? = some ']'
    · cases hp : parseJsonArray (trimL s.data) with
      | some elems => simp [hg, hp]
      | none => simp [hg, hp]
    · simp [hg]

/-! ## Properties of occurrence expansion -/

/-- The closed upper bound actually used by `ruleDates`:
`windowEnd`, tightened by `UNTIL` when present. -/
def hiBound (until? : Option Int) (qe : Int) : Int :=
  match until? with
  | none => qe
  | some u => min qe u

theorem ruleDates_eq (t0 : Int) (step : Nat) (until? : Option Int) (qs qe : Int) :
    ruleDates t0 step until? qs qe =
      if hiBound until? qe < t0 then []
      else
        ((List.range (((hiBound until? qe) - t0).toNat / step + 1)).map
          (fun k : Nat => t0 + (step : Int) * (k : Int))).filter
          (fun d => decide (qs ≤ d) && decide (d ≤ hiBound until? qe)) := by
  cases until? <;> rfl

/-- Soundness of the generated instants: each lies on the series grid, at
or after `windowStart`, and at or before both `windowEnd` and the `UNTIL`
bound. -/
theorem of_mem_ruleDates {t0 : Int} {step : Nat} {until? : Option Int} {qs qe x : Int}
    (hx : x ∈ ruleDates t0 step until? qs qe) :
    (∃ k : Nat, x = t0 + (step : Int) * k) ∧ qs ≤ x ∧ x ≤ qe ∧
      ∀ u, until? = some u → x ≤ u := by
  rw [ruleDates_eq] at hx
  by_cases hlt : hiBound until? qe < t0
  · simp [hlt] at hx
  · simp only [hlt, if_false, List.mem_filter, List.mem_map, List.mem_range] at hx
    obtain ⟨⟨k, _, rfl⟩, hcond⟩ := hx
    simp only [Bool.and_eq_true, decide_eq_true_eq] at hcond
    refine ⟨⟨k, rfl⟩, hcond.1, ?_, ?_⟩
    · cases until? with
      | none => exact hcond.2
      | some u =>
        have : hiBound (some u) qe ≤ qe := min_le_left _ _
        omega
    · intro u hu
      subst hu
      have : hiBound (some u) qe ≤ u := min_le_right _ _
      omega

/-- Completeness of the generated instants: every grid instant inside the
window and under the `UNTIL` bound is generated (positive step). -/
theorem mem_ruleDates_of {t0 : Int} {step : Nat} {until? : Option Int} {qs qe x : Int}
    (hstep : 0 < step) (hk : ∃ k : Nat, x = t0 + (step : Int) * k)
    (hqs : qs ≤ x) (hqe : x ≤ qe) (hu : ∀ u, until? = some u → x ≤ u) :
    x ∈ ruleDates t0 step until? qs qe := by
  obtain ⟨k, rfl⟩ := hk
  have hnn : (0 : Int) ≤ (step : Int) * k := by positivity
  have hhi : t0 + (step : Int) * k ≤ hiBound until? qe := by
    cases until? with
    | none => exact hqe
    | some u =>
      have := hu u rfl
      simp only [hiBound, le_min_iff]
      omega
  rw [ruleDates_eq]
  have hlt : ¬ hiBound until? qe < t0 := by omega
  simp only [hlt, if_false, List.mem_filter, List.mem_map, List.mem_range]
  refine ⟨⟨k, ?_, rfl⟩, ?_⟩
  · have h4 : ((step * k : Nat) : Int) ≤ hiBound until? qe - t0 := by
      push_cast
      omega
    have h3 : step * k ≤ (hiBound until? qe - t0).toNat := by omega
    have h5 : k ≤ (hiBound until? qe - t0).toNat / step :=
      (Nat.le_div_iff_mul_le hstep).mpr (by rw [Nat.mul_comm]; exact h3)
    omega
  · simp only [Bool.and_eq_true, decide_eq_true_eq]
    exact ⟨hqs, hhi⟩

/-- Generated instants are strictly ascending (positive step). -/
theorem ruleDates_pairwise {t0 : Int} {step : Nat} {until? : Option Int} {qs qe : Int}
    (hstep : 0 < step) : (ruleDates t0 step until? qs qe).Pairwise (· < ·) := by
  rw [ruleDates_eq]
  by_cases hlt : hiBound until? qe < t0
  · simp [hlt]
  · simp only [hlt, if_false]
    refine List.Pairwise.filter _ ?_
    rw [List.pairwise_map]
    refine (List.pairwise_lt_range _).imp ?_
    intro a b hab
    have : (step : Int) * a < (step : Int) * b := by
      have hs : (0 : Int) < (step : Int) := by exact_mod_cast hstep
      exact mul_lt_mul_of_pos_left (by exact_mod_cast hab) hs
    omega

/-- Generated instants are weakly ascending for every step (a zero step
degenerates to at most one instant). -/
theorem ruleDates_chain_le (t0 : Int) (step : Nat) (until? : Option Int) (qs qe : Int) :
    (ruleDates t0 step until? qs qe).Chain' (· ≤ ·) := by
  cases step with
  | zero =>
    have hsh : ∀ (l : List Int), l.length ≤ 1 → l.Chain' (· ≤ ·) := by
      intro l h
      cases l with
      | nil => exact List.chain'_nil
      | cons a t =>
        cases t with
        | nil => exact List.chain'_singleton a
        | cons b t2 => simp at h
    apply hsh
    rw [ruleDates_eq]
    by_cases hlt : hiBound until? qe < t0
    · simp [hlt]
    · rw [if_neg hlt]
      refine le_trans (List.length_filter_le _ _) ?_
      simp [Nat.div_zero]
  | succ n =>
    exact ((ruleDates_pairwise (Nat.succ_pos n)).imp fun h => le_of_lt h).chain'

/-- The step of a decoded rule is positive when its interval is. -/
theorem stepOf_pos (opts : RRuleOpts) (h : 0 < opts.interval) : 0 < stepOf opts := by
  unfold stepOf
  cases hf : opts.freq <;> simp [freqStepMs] <;> omega

/-- Expansion equation: no recurrence rule. -/
theorem expandEvent_no_rrule (qs qe : Int) (e : Event) (hr : e.rrule = none) :
    expandEvent qs qe e = [e] := by
  cases hs : e.start <;> simp [expandEvent, hr, hs]

/-- Expansion equation: no start (the null-start guard). -/
theorem expandEvent_no_start (qs qe : Int) (e : Event) (hs : e.start = none) :
    expandEvent qs qe e = [e] := by
  cases hr : e.rrule <;> simp [expandEvent, hr, hs]

/-- Expansion equation: rule present but malformed — the single
un-expanded row is kept. -/
theorem expandEvent_parse_fail (qs qe : Int) (e : Event) (r : String) (t0 : Int)
    (hr : e.rrule = some r) (hs : e.start = some t0)
    (hp : parseRRuleString r = none) : expandEvent qs qe e = [e] := by
  simp [expandEvent, hr, hs, hp]

/-- Expansion equation: rule decoded — one occurrence per generated
instant, carrying the event's fields with the instant as start and
instance key and the constant duration added for the end. -/
theorem expandEvent_parse_some (qs qe : Int) (e : Event) (r : String) (t0 : Int)
    (opts : RRuleOpts) (hr : e.rrule = some r) (hs : e.start = some t0)
    (hp : parseRRuleString r = some opts) :
    expandEvent qs qe e =
      (ruleDates t0 (stepOf opts) opts.«until» qs qe).map
        (fun d => { e with
          start := some d
          «end» := some (d + durationOf e t0)
          recurrence_id := some d }) := by
  simp [expandEvent, hr, hs, hp]

/-! ## Properties of the query engine -/

/-- The window-overlap candidate rule exactly as the claim words it: no
rule and (start in window, or end in window, or spans the window); or a
rule with `start ≤ windowEnd` and (`repeat_end_date` absent or
`≥ windowStart`); or a null start. -/
def claimSelects (e : Event) (windowStart windowEnd : Int) : Bool :=
  (e.rrule == none &&
    (optWithin e.start windowStart windowEnd || optWithin e.«end» windowStart windowEnd ||
      (optLe e.start windowStart && optGe e.«end» windowEnd))) ||
  (!(e.rrule == none) && optLe e.start windowEnd &&
    (e.repeat_end_date == none || optGe e.repeat_end_date windowStart)) ||
  (e.start == none)

/-- The Prisma filter agrees with the claim's selection predicate. -/
theorem whereMatches_eq_claimSelects (e : Event) (qs qe : Int) :
    whereMatches e qs qe = claimSelects e qs qe := by
  unfold whereMatches claimSelects
  cases hr : e.rrule <;> cases hs : e.start <;> cases hn : e.«end» <;>
    cases hd : e.repeat_end_date <;>
      simp [optLe, optGe, optWithin, Bool.and_assoc, Bool.and_comm, Bool.or_assoc,
        Bool.or_comm, Bool.and_or_distrib_left]

/-- A null-start event passes the window filter for every window. -/
theorem whereMatches_of_no_start (e : Event) (qs qe : Int) (hs : e.start = none) :
    whereMatches e qs qe = true := by
  simp [whereMatches, hs]

/-- An event that passes the filter and expands to itself is in the
windowed query result. -/
theorem mem_calendarQuery_windowed (qs qe now : Int) (events : List Event) (e : Event)
    (he : e ∈ events) (hw : whereMatches e qs qe = true)
    (hexp : expandEvent qs qe e = [e]) :
    e ∈ calendarQuery (some qs) (some qe) now events := by
  show e ∈ ((sortByStart (events.filter (fun e => whereMatches e qs qe))).map
    (expandEvent qs qe)).flatten
  have h1 : e ∈ events.filter (fun e => whereMatches e qs qe) :=
    List.mem_filter.mpr ⟨he, hw⟩
  have h2 : e ∈ sortByStart (events.filter (fun e => whereMatches e qs qe)) :=
    (List.mem_insertionSort _).mpr h1
  exact List.mem_flatten.mpr ⟨expandEvent qs qe e, List.mem_map_of_mem _ h2,
    by rw [hexp]; exact List.mem_singleton_self e⟩

/-- The sort key is total. -/
instance startKeyTotal : IsTotal Event (fun a b => startKeyLe a b = true) := ⟨by
  intro a b
  unfold startKeyLe
  cases a.start <;> cases b.start <;> simp [decide_eq_true_eq] <;> omega⟩

/-- The sort key is transitive. -/
instance startKeyTrans : IsTrans Event (fun a b => startKeyLe a b = true) := ⟨by
  intro a b c hab hbc
  unfold startKeyLe at *
  cases ha : a.start <;> cases hb : b.start <;> cases hc : c.start <;>
    simp_all [decide_eq_true_eq] <;> omega⟩

/-- The fetched rows are sorted by the key of `orderBy start asc`. -/
theorem sortByStart_sorted (l : List Event) :
    (sortByStart l).Pairwise (fun a b => startKeyLe a b = true) :=
  List.sorted_insertionSort _ l

/-- Within one event's expansion block, occurrence starts ascend. -/
theorem expandEvent_chain_le (qs qe : Int) (e : Event) :
    ((expandEvent qs qe e).filterMap (fun o => o.start)).Chain' (· ≤ ·) := by
  cases hr : e.rrule with
  | none =>
    rw [expandEvent_no_rrule qs qe e hr]
    cases hs : e.start <;> simp [List.filterMap, hs]
  | some r =>
    cases hs : e.start with
    | none =>
      rw [expandEvent_no_start qs qe e hs]
      simp [List.filterMap, hs]
    | some t0 =>
      cases hp : parseRRuleString r with
      | none =>
        rw [expandEvent_parse_fail qs qe e r t0 hr hs hp]
        simp [List.filterMap, hs]
      | some opts =>
        rw [expandEvent_parse_some qs qe e r t0 opts hr hs hp]
        have hcomp :
            ((ruleDates t0 (stepOf opts) opts.«until» qs qe).map
              (fun d => { e with
                start := some d
                «end» := some (d + durationOf e t0)
                recurrence_id := some d })).filterMap (fun o => o.start) =
            ruleDates t0 (stepOf opts) opts.«until» qs qe := by
          rw [List.filterMap_map]
          simp [Function.comp_def]
        rw [hcomp]
        exact ruleDates_chain_le t0 (stepOf opts) opts.«until» qs qe

/-! ## Concrete events used by the witnesses and counterexamples -/

/-- A weekly event anchored 2024-01-01 with a one-hour duration. -/
def weeklyEv : Event :=
  ⟨1, "weekly", some (epochMs 2024 1 1 0 0 0), some (epochMs 2024 1 1 1 0 0),
    some "FREQ=WEEKLY", none, none⟩

/-- A plain non-recurring event on 2024-01-05. -/
def marchEv : Event :=
  ⟨2, "plain", some (epochMs 2024 1 5 0 0 0), some (epochMs 2024 1 5 1 0 0),
    none, none, none⟩

/-- An event with an undecodable recurrence rule string. -/
def corruptEv : Event :=
  ⟨3, "corrupt", some (epochMs 2024 1 3 0 0 0), some (epochMs 2024 1 3 1 0 0),
    some "FREQ=BOGUS", none, none⟩

/-- A weekly event bounded by `UNTIL=2024-02-01`. -/
def untilEv : Event :=
  ⟨4, "until", some (epochMs 2024 1 1 0 0 0), none,
    some "FREQ=WEEKLY;UNTIL=20240201T000000Z", none, none⟩

/-- A non-recurring event lying entirely after `now + 1 year` (for
`now = 0`). -/
def lateEv : Event :=
  ⟨5, "late", some (yearMs + 86400000), some (yearMs + 90000000), none, none, none⟩

/-- An unscheduled event: no start at all. -/
def nullStartEv : Event := ⟨7, "unscheduled", none, none, none, none, none⟩

/-- A forbidden-state event: a recurrence rule but no start. -/
def anchorlessEv : Event :=
  ⟨9, "anchorless", none, none, some "FREQ=WEEKLY", none, none⟩

/-! ## The claims -/

/-- C1 counterexample: over the window 2024-01-01..2024-01-22 with the
weekly event (anchored 2024-01-01) and a non-recurring event on
2024-01-05, the query returns the weekly occurrences 01-01, 01-08, 01-15,
01-22 and then the 01-05 event: the generated occurrence at 01-22 appears
before the earlier-starting (01-05) occurrence of a different event, and
the start sequence fails to be ascending. -/
theorem c1_not_globally_sorted :
    (calendarQuery (some (epochMs 2024 1 1 0 0 0)) (some (epochMs 2024 1 22 0 0 0)) 0
        [weeklyEv, marchEv]).filterMap (fun o => o.start) =
      [epochMs 2024 1 1 0 0 0, epochMs 2024 1 8 0 0 0, epochMs 2024 1 15 0 0 0,
        epochMs 2024 1 22 0 0 0, epochMs 2024 1 5 0 0 0] ∧
    ¬ ([epochMs 2024 1 1 0 0 0, epochMs 2024 1 8 0 0 0, epochMs 2024 1 15 0 0 0,
        epochMs 2024 1 22 0 0 0, epochMs 2024 1 5 0 0 0] : List Int).Chain' (· ≤ ·) := by
  constructor
  · decide
  · intro h
    rw [List.chain'_cons, List.chain'_cons, List.chain'_cons, List.chain'_cons] at h
    exact absurd h.2.2.2.1 (by decide)

/-- C1 (amended): the windowed query is the concatenation, in the fetched
event order (ascending by the owning event's nominal start, null starts at
one end), of each event's occurrence block, and within each block the
occurrence starts ascend; global ordering of the merged sequence by
`occurrenceStart` does not hold across events. -/
theorem c1_query_order (qs qe now : Int) (events : List Event) :
    (calendarQuery (some qs) (some qe) now events =
      ((sortByStart (events.filter (fun e => whereMatches e qs qe))).map
        (expandEvent qs qe)).flatten) ∧
    (sortByStart (events.filter (fun e => whereMatches e qs qe))).Pairwise
      (fun a b => startKeyLe a b = true) ∧
    (∀ e, ((expandEvent qs qe e).filterMap (fun o => o.start)).Chain' (· ≤ ·)) :=
  ⟨rfl, sortByStart_sorted _, fun e => expandEvent_chain_le qs qe e⟩

/-- C2 counterexample: with no window parameters (now = 0), the
non-recurring event lying entirely outside `[now, now + 1 year]` is still
returned, while the same query with the default window passed explicitly
filters it out — the no-window query does not behave as if the default
window had been supplied. -/
theorem c2_no_filter_without_window :
    calendarQuery none none 0 [lateEv] = [lateEv] ∧
    calendarQuery (some 0) (some yearMs) 0 [lateEv] = [] :=
  ⟨by decide, by decide⟩

/-- C2 (amended): whenever the `start` or `end` query parameter is
missing, no candidate filtering at all is applied — every stored event is
fetched and kept — while the expansion bounds for recurring events do
default to `now` and `now + 1 year` on the missing side. -/
theorem c2_default_window_no_filter (now : Int) (events : List Event) :
    (calendarQuery none none now events =
      ((sortByStart events).map (expandEvent now (now + yearMs))).flatten) ∧
    (∀ qe, calendarQuery none (some qe) now events =
      ((sortByStart events).map (expandEvent now qe)).flatten) ∧
    (∀ qs, calendarQuery (some qs) none now events =
      ((sortByStart events).map (expandEvent qs (now + yearMs))).flatten) :=
  ⟨rfl, fun _ => rfl, fun _ => rfl⟩

/-- C4: for a recurring event whose rule decodes (with a positive
interval) and whose start is present, expansion yields exactly one
occurrence per series instant lying inside the window, inclusive at both
endpoints and under the `UNTIL` bound, in strictly ascending order, each
occurrence carrying `end = start + (event.end - event.start)` (zero
duration if the event has no end) and its own start as instance key
(`recurrence_id`). -/
theorem c4_rule_expansion (e : Event) (r : String) (opts : RRuleOpts) (t0 qs qe : Int)
    (hr : e.rrule = some r) (hs : e.start = some t0)
    (hp : parseRRuleString r = some opts) (hi : 0 < opts.interval) :
    (expandEvent qs qe e =
      (ruleDates t0 (stepOf opts) opts.«until» qs qe).map
        (fun d => { e with
          start := some d
          «end» := some (d + durationOf e t0)
          recurrence_id := some d })) ∧
    (∀ x, x ∈ ruleDates t0 (stepOf opts) opts.«until» qs qe ↔
      ((∃ k : Nat, x = t0 + (stepOf opts : Int) * k) ∧ qs ≤ x ∧ x ≤ qe ∧
        ∀ u, opts.«until» = some u → x ≤ u)) ∧
    (ruleDates t0 (stepOf opts) opts.«until» qs qe).Pairwise (· < ·) := by
  have hstep := stepOf_pos opts hi
  exact ⟨expandEvent_parse_some qs qe e r t0 opts hr hs hp,
    fun x => ⟨of_mem_ruleDates,
      fun hx => mem_ruleDates_of hstep hx.1 hx.2.1 hx.2.2.1 hx.2.2.2⟩,
    ruleDates_pairwise hstep⟩

/-- Witness for C4: the weekly event anchored 2024-01-01 with no end
bound, over the window 2024-01-01..2024-01-22, expands to exactly the
four occurrences 01-01, 01-08, 01-15, 01-22, each one hour long and keyed
by its own start. -/
theorem c4_rule_expansion_witness :
    expandEvent (epochMs 2024 1 1 0 0 0) (epochMs 2024 1 22 0 0 0) weeklyEv =
      [{ weeklyEv with start := some (epochMs 2024 1 1 0 0 0), «end» := some (epochMs 2024 1 1 1 0 0), recurrence_id := some (epochMs 2024 1 1 0 0 0) },
       { weeklyEv with start := some (epochMs 2024 1 8 0 0 0), «end» := some (epochMs 2024 1 8 1 0 0), recurrence_id := some (epochMs 2024 1 8 0 0 0) },
       { weeklyEv with start := some (epochMs 2024 1 15 0 0 0), «end» := some (epochMs 2024 1 15 1 0 0), recurrence_id := some (epochMs 2024 1 15 0 0 0) },
       { weeklyEv with start := some (epochMs 2024 1 22 0 0 0), «end» := some (epochMs 2024 1 22 1 0 0), recurrence_id := some (epochMs 2024 1 22 0 0 0) }] :=
  (c4_rule_expansion weeklyEv "FREQ=WEEKLY" ⟨RFreq.weekly, 1, none⟩
    (epochMs 2024 1 1 0 0 0) (epochMs 2024 1 1 0 0 0) (epochMs 2024 1 22 0 0 0)
    rfl rfl (by decide) (by decide)).1.trans (by decide)

/-- C6: an event whose rule string fails to decode contributes exactly its
single un-expanded row, and the per-event expansion of the fetched
sequence decomposes around it, so every other event's occurrences are
exactly what they would be with the corrupt event absent (or well-formed);
the model is total, so the query as a whole cannot fail (the handler
additionally logs the caught error, a side effect outside this model). -/
theorem c6_malformed_rule_isolated (qs qe : Int) (c : Event) (r : String) (t0 : Int)
    (hr : c.rrule = some r) (hs : c.start = some t0)
    (hp : parseRRuleString r = none) :
    expandEvent qs qe c = [c] ∧
    ∀ pre post : List Event,
      ((pre ++ c :: post).map (expandEvent qs qe)).flatten =
        (pre.map (expandEvent qs qe)).flatten ++
          c :: (post.map (expandEvent qs qe)).flatten := by
  have h1 := expandEvent_parse_fail qs qe c r t0 hr hs hp
  refine ⟨h1, fun pre post => ?_⟩
  rw [List.map_append, List.flatten_append, List.map_cons, List.flatten_cons, h1]
  simp

/-- Witness for C6: the corrupt event between the weekly and the plain
event contributes exactly itself, leaving both neighbours' expansions
untouched. -/
theorem c6_malformed_rule_isolated_witness :
    expandEvent 0 (10 : Int) corruptEv = [corruptEv] ∧
    (([weeklyEv] ++ corruptEv :: [marchEv]).map (expandEvent 0 10)).flatten =
      ([weeklyEv].map (expandEvent 0 10)).flatten ++
        corruptEv :: ([marchEv].map (expandEvent 0 10)).flatten := by
  have h := c6_malformed_rule_isolated 0 10 corruptEv "FREQ=BOGUS"
    (epochMs 2024 1 3 0 0 0) rfl rfl (by decide)
  exact ⟨h.1, h.2 [weeklyEv] [marchEv]⟩

/-- C7: with both window parameters supplied, an event is selected as a
candidate exactly per the claim's rule — (no rule ∧ (start in window ∨
end in window ∨ spans the window)) ∨ (rule ∧ start ≤ windowEnd ∧
(recurrence end absent ∨ ≥ windowStart)) ∨ start is null — and in
particular a null-start event belonging to the store appears in the
result of every windowed query. -/
theorem c7_candidate_selection :
    (∀ (e : Event) (qs qe : Int), whereMatches e qs qe = claimSelects e qs qe) ∧
    (∀ (qs qe now : Int) (events : List Event) (e : Event),
      e ∈ events → e.start = none →
      e ∈ calendarQuery (some qs) (some qe) now events) := by
  refine ⟨whereMatches_eq_claimSelects, ?_⟩
  intro qs qe now events e he hs
  exact mem_calendarQuery_windowed qs qe now events e he
    (whereMatches_of_no_start e qs qe hs) (expandEvent_no_start qs qe e hs)

/-- Witness for C7: the unscheduled event is selected and returned for a
window it does not intersect. -/
theorem c7_candidate_selection_witness :
    whereMatches nullStartEv 0 100 = claimSelects nullStartEv 0 100 ∧
    nullStartEv ∈ calendarQuery (some 0) (some 100) 0 [nullStartEv] :=
  ⟨c7_candidate_selection.1 nullStartEv 0 100,
   c7_candidate_selection.2 0 100 0 [nullStartEv] nullStartEv (by decide) rfl⟩

/-- C8: when the decoded rule carries an `UNTIL` bound, no generated
occurrence of the event starts after that bound, whatever the query
window. -/
theorem c8_until_bound (e : Event) (r : String) (opts : RRuleOpts) (u t0 qs qe : Int)
    (o : Event) (d : Int) (hr : e.rrule = some r) (hs : e.start = some t0)
    (hp : parseRRuleString r = some opts) (hu : opts.«until» = some u)
    (ho : o ∈ expandEvent qs qe e) (hd : o.start = some d) : d ≤ u := by
  rw [expandEvent_parse_some qs qe e r t0 opts hr hs hp] at ho
  obtain ⟨x, hx, rfl⟩ := List.mem_map.mp ho
  have hxd : x = d := by simpa using hd
  subst hxd
  exact (of_mem_ruleDates hx).2.2.2 u hu

/-- Witness for C8: the event with `UNTIL = 2024-02-01` queried over
2024-01-01..2024-03-01 generates an occurrence starting 2024-01-29, and
the bound applies to it: its start does not exceed 2024-02-01. -/
theorem c8_until_bound_witness :
    epochMs 2024 1 29 0 0 0 ≤ epochMs 2024 2 1 0 0 0 :=
  c8_until_bound untilEv "FREQ=WEEKLY;UNTIL=20240201T000000Z"
    ⟨RFreq.weekly, 1, some (epochMs 2024 2 1 0 0 0)⟩ (epochMs 2024 2 1 0 0 0)
    (epochMs 2024 1 1 0 0 0) (epochMs 2024 1 1 0 0 0) (epochMs 2024 3 1 0 0 0)
    { untilEv with start := some (epochMs 2024 1 29 0 0 0), «end» := some (epochMs 2024 1 29 0 0 0), recurrence_id := some (epochMs 2024 1 29 0 0 0) }
    (epochMs 2024 1 29 0 0 0)
    rfl rfl (by decide) rfl (by decide) rfl

/-- C10: an event carrying a recurrence rule but no start (the state the
data-model invariant forbids) is never expanded: the null-start guard
routes it to the pass-through branch, the total model cannot raise, and
the windowed query returns it exactly once with all original fields. -/
theorem c10_null_start_guard (qs qe now : Int) (e : Event) (events : List Event)
    (_hr : e.rrule.isSome = true) (hs : e.start = none) :
    expandEvent qs qe e = [e] ∧
    (e ∈ events → e ∈ calendarQuery (some qs) (some qe) now events) := by
  refine ⟨expandEvent_no_start qs qe e hs, fun he => ?_⟩
  exact mem_calendarQuery_windowed qs qe now events e he
    (whereMatches_of_no_start e qs qe hs) (expandEvent_no_start qs qe e hs)

/-- Witness for C10: the anchorless event passes through unexpanded and
appears in the query result. -/
theorem c10_null_start_guard_witness :
    expandEvent 0 (10 : Int) anchorlessEv = [anchorlessEv] ∧
    anchorlessEv ∈ calendarQuery (some 0) (some 10) 0 [anchorlessEv] := by
  have h := c10_null_start_guard 0 10 0 anchorlessEv [anchorlessEv] rfl rfl
  exact ⟨h.1, h.2 (by decide)⟩

end SMSI
